import Mathlib

/-!
Verification of the Smart Vocab spaced-repetition scheduling core.

The repository ships the React frontend (the caller of the core) and the
project documentation; the backend scheduling engine itself (RecordStore,
DueQueue, DifficultyIndex and the spaced-repetition policy) is described by
the specification but its code is not part of the source tree.  Definitions
below that embed that engine are therefore modelled from the specification
(each such definition says so in its doc comment); definitions for the
analytics view and the difficulty page are translated from the frontend
source files.

Conventions of the embedding:
* real numbers (confidence scores, intervals in days, timestamps) become
  rationals;
* difficulty is an integer (so that out-of-range inputs such as 0 or 6 are
  expressible);
* fallible operations return `Except CoreError`;
* each structure of the core is a list: the RecordStore an association list
  from keys to records, the DueQueue a list of record keys (the queue holds
  references, priorities are read from the authoritative record), the
  DifficultyIndex a list of (difficulty, key) entries.
-/

/-- Key identifying a `WordRecord`: (learner, word, language).
Modelled from the spec: §3 uniqueness is per (learner_id, word, language). -/
structure WordKey where
  learner : String
  word : String
  language : String
deriving DecidableEq, Repr

/-- Status of a record.  Modelled from the spec: §3 `status` enum
{UnderReview, Completed}. -/
inductive Status where
  | UnderReview : Status
  | Completed : Status
deriving DecidableEq, Repr

/-- One learning record.  Modelled from the spec: §3 WordRecord fields.
`reviewed_ok` records whether at least one successful review occurred
(needed by the §3 status invariant). -/
structure WordRecord where
  key : WordKey
  difficulty : Int
  confidence : ℚ
  interval : ℚ
  last_review_at : Option ℚ
  next_due_at : ℚ
  status : Status
  reviewed_ok : Bool
deriving DecidableEq, Repr

/-- Policy constant, spec §4.2: minimum base interval (1 day). -/
def base_interval : ℚ := 1

/-- Policy constant, spec §4.2: maximum interval cap (90 days). -/
def max_interval : ℚ := 90

/-- Policy constant, spec §4.2: interval growth factor on a correct answer. -/
def growth_factor : ℚ := 2

/-- Policy constant, spec §4.2: confidence increment on a correct answer. -/
def correct_increment : ℚ := 15/100

/-- Policy constant, spec §4.2: confidence penalty on an incorrect answer. -/
def incorrect_penalty : ℚ := 25/100

/-- Policy constant, spec §3: completion threshold for `Completed` status. -/
def completion_threshold : ℚ := 9/10

/-- Modelled from the spec: §3 lifecycle — a record is created with
confidence 0, the base interval, no review yet, due immediately, status
UnderReview. -/
def newRecord (k : WordKey) (d : Int) (now : ℚ) : WordRecord :=
  { key := k
    difficulty := d
    confidence := 0
    interval := base_interval
    last_review_at := none
    next_due_at := now
    status := .UnderReview
    reviewed_ok := false }

/-- Modelled from the spec: §3 status invariant — `Completed` iff confidence
reached the threshold and a successful review occurred. -/
def recomputeStatus (conf : ℚ) (ok : Bool) : Status :=
  if completion_threshold ≤ conf ∧ ok = true then .Completed else .UnderReview

/-- Modelled from the spec: §4.2 spaced-repetition policy applied by
`recordAnswer` to a single record.  Correct: confidence grows by
`correct_increment` capped at 1, interval doubles capped at `max_interval`,
status recomputed.  Incorrect: confidence shrinks by `incorrect_penalty`
floored at 0, interval resets to `base_interval`, status forced UnderReview.
Both: `last_review_at = now`, `next_due_at = now + interval`. -/
def applyAnswer (r : WordRecord) (correct : Bool) (now : ℚ) : WordRecord :=
  if correct then
    let conf := min 1 (r.confidence + correct_increment)
    let itv := min (r.interval * growth_factor) max_interval
    { r with
      confidence := conf
      interval := itv
      last_review_at := some now
      next_due_at := now + itv
      status := recomputeStatus conf true
      reviewed_ok := true }
  else
    let conf := max 0 (r.confidence - incorrect_penalty)
    { r with
      confidence := conf
      interval := base_interval
      last_review_at := some now
      next_due_at := now + base_interval
      status := .UnderReview }

/-- A finite sequence of answers applied to one record, each step being a
(correctness, time) pair. -/
def runAnswers (r : WordRecord) (steps : List (Bool × ℚ)) : WordRecord :=
  steps.foldl (fun acc s => applyAnswer acc s.1 s.2) r

/-- Record-level invariant of spec §8: confidence in [0,1] and interval in
[base_interval, max_interval]. -/
def RecordOK (r : WordRecord) : Prop :=
  0 ≤ r.confidence ∧ r.confidence ≤ 1 ∧
  base_interval ≤ r.interval ∧ r.interval ≤ max_interval

/-- Record-level status invariant of spec §3: Completed iff threshold reached
and a successful review happened. -/
def StatusOK (r : WordRecord) : Prop :=
  r.status = .Completed ↔ (completion_threshold ≤ r.confidence ∧ r.reviewed_ok = true)

theorem recordOK_new (k : WordKey) (d : Int) (now : ℚ) : RecordOK (newRecord k d now) := by
  simp [RecordOK, newRecord, base_interval, max_interval]

theorem statusOK_new (k : WordKey) (d : Int) (now : ℚ) : StatusOK (newRecord k d now) := by
  simp [StatusOK, newRecord]

theorem recordOK_applyAnswer (r : WordRecord) (correct : Bool) (now : ℚ)
    (h : RecordOK r) : RecordOK (applyAnswer r correct now) := by
  obtain ⟨h0, h1, hb, hm⟩ := h
  simp only [base_interval, max_interval] at hb hm
  cases correct with
  | true =>
    simp only [RecordOK, applyAnswer, if_true, base_interval, max_interval, growth_factor,
      correct_increment]
    refine ⟨?_, ?_, ?_, ?_⟩
    · refine le_min (by norm_num) (by linarith)
    · exact min_le_left _ _
    · refine le_min (by linarith) (by norm_num)
    · exact min_le_right _ _
  | false =>
    simp only [RecordOK, applyAnswer, Bool.false_eq_true, if_false, base_interval,
      max_interval, incorrect_penalty]
    refine ⟨le_max_left _ _, max_le (by norm_num) (by linarith), by norm_num, by norm_num⟩

theorem statusOK_applyAnswer (r : WordRecord) (correct : Bool) (now : ℚ)
    (h : RecordOK r) : StatusOK (applyAnswer r correct now) := by
  obtain ⟨h0, h1, hb, hm⟩ := h
  cases correct with
  | true =>
    simp only [StatusOK, applyAnswer, if_true, recomputeStatus, and_true]
    by_cases hc : completion_threshold ≤ min 1 (r.confidence + correct_increment)
    · simp [hc]
    · simp [hc]
  | false =>
    simp only [StatusOK, applyAnswer, Bool.false_eq_true, if_false]
    constructor
    · intro hcontra
      exact absurd hcontra (by simp)
    · rintro ⟨hconf, -⟩
      exfalso
      have hle : max 0 (r.confidence - incorrect_penalty) ≤ 75/100 := by
        refine max_le (by norm_num) ?_
        simp only [incorrect_penalty]
        linarith
      simp only [completion_threshold] at hconf
      linarith

theorem recordOK_runAnswers (r : WordRecord) (steps : List (Bool × ℚ))
    (h : RecordOK r) : RecordOK (runAnswers r steps) := by
  induction steps generalizing r with
  | nil => exact h
  | cons s t ih =>
    exact ih _ (recordOK_applyAnswer r s.1 s.2 h)

theorem statusOK_runAnswers (r : WordRecord) (steps : List (Bool × ℚ))
    (hr : RecordOK r) (hs : StatusOK r) : StatusOK (runAnswers r steps) := by
  induction steps generalizing r with
  | nil => exact hs
  | cons s t ih =>
    exact ih _ (recordOK_applyAnswer r s.1 s.2 hr) (statusOK_applyAnswer r s.1 s.2 hr)

/-- Error kinds of the core, spec §7. -/
inductive CoreError where
  | NotFound : CoreError
  | InvalidArgument : CoreError
  | AlreadyExists : CoreError
deriving DecidableEq, Repr

/-- Modelled from the spec: §2 the three components of the core.  The
RecordStore is an association list keyed by `WordKey`; the DueQueue holds
record keys (priorities are read from the store, §2 "they hold keys /
references, not copies"); the DifficultyIndex holds (difficulty, key)
entries, §4.3 keyed by (difficulty, word). -/
structure CoreState where
  store : List (WordKey × WordRecord)
  dueQueue : List WordKey
  diffIndex : List (Int × WordKey)
deriving DecidableEq, Repr

/-- The empty core state (process startup, spec §5). -/
def emptyCore : CoreState := ⟨[], [], []⟩

/-- Association-list lookup for the RecordStore. -/
def assocFind (k : WordKey) : List (WordKey × WordRecord) → Option WordRecord
  | [] => none
  | p :: t => if p.1 = k then some p.2 else assocFind k t

/-- Association-list value replacement at a key (leaves other keys alone). -/
def assocSet (k : WordKey) (r : WordRecord) :
    List (WordKey × WordRecord) → List (WordKey × WordRecord)
  | [] => []
  | p :: t => (if p.1 = k then (p.1, r) else p) :: assocSet k r t

theorem assocFind_eq_none {k : WordKey} {l : List (WordKey × WordRecord)} :
    assocFind k l = none ↔ k ∉ l.map Prod.fst := by
  induction l with
  | nil => simp [assocFind]
  | cons p t ih =>
    simp only [assocFind, List.map_cons, List.mem_cons]
    by_cases h : p.1 = k
    · simp [h]
    · rw [if_neg h, ih]
      simp only [not_or]
      constructor
      · intro hn
        exact ⟨fun he => h he.symm, hn⟩
      · intro hn
        exact hn.2

theorem assocFind_isSome_iff {k : WordKey} {l : List (WordKey × WordRecord)} :
    (assocFind k l).isSome ↔ k ∈ l.map Prod.fst := by
  rcases h : assocFind k l with _ | r
  · simp [assocFind_eq_none.mp h]
  · simp only [Option.isSome_some, true_iff]
    by_contra hmem
    rw [← assocFind_eq_none] at hmem
    rw [h] at hmem
    exact Option.noConfusion hmem

theorem assocFind_mem {k : WordKey} {r : WordRecord} {l : List (WordKey × WordRecord)}
    (h : assocFind k l = some r) : (k, r) ∈ l := by
  induction l with
  | nil => simp [assocFind] at h
  | cons p t ih =>
    by_cases hk : p.1 = k
    · simp only [assocFind, hk, if_true, Option.some.injEq] at h
      subst hk h
      exact List.mem_cons_self _ _
    · simp only [assocFind, hk, if_false] at h
      exact List.mem_cons_of_mem _ (ih h)

theorem assocFind_of_mem_nodup {k : WordKey} {r : WordRecord}
    {l : List (WordKey × WordRecord)} (hnd : (l.map Prod.fst).Nodup)
    (h : (k, r) ∈ l) : assocFind k l = some r := by
  induction l with
  | nil => simp at h
  | cons p t ih =>
    simp only [List.map_cons, List.nodup_cons] at hnd
    rcases List.mem_cons.mp h with h | h
    · subst h
      simp [assocFind]
    · have hne : p.1 ≠ k := by
        intro he
        exact hnd.1 (he ▸ (List.mem_map.mpr ⟨(k, r), h, rfl⟩))
      simp [assocFind, hne, ih hnd.2 h]

theorem assocSet_map_fst (k : WordKey) (r : WordRecord) (l : List (WordKey × WordRecord)) :
    (assocSet k r l).map Prod.fst = l.map Prod.fst := by
  induction l with
  | nil => rfl
  | cons p t ih =>
    by_cases h : p.1 = k <;> simp [assocSet, h, ih]

theorem assocFind_assocSet_self {k : WordKey} {r r' : WordRecord}
    {l : List (WordKey × WordRecord)} (h : assocFind k l = some r) :
    assocFind k (assocSet k r' l) = some r' := by
  induction l with
  | nil => simp [assocFind] at h
  | cons p t ih =>
    by_cases hk : p.1 = k
    · simp [assocFind, assocSet, hk]
    · simp only [assocFind, hk, if_false] at h
      simp [assocFind, assocSet, hk, ih h]

theorem assocFind_assocSet_ne {k k' : WordKey} {r' : WordRecord}
    {l : List (WordKey × WordRecord)} (h : k' ≠ k) :
    assocFind k' (assocSet k r' l) = assocFind k' l := by
  induction l with
  | nil => rfl
  | cons p t ih =>
    by_cases hk : p.1 = k
    · have hp : p.1 ≠ k' := by rw [hk]; exact fun he => h he.symm
      have hkk : k ≠ k' := fun he => h he.symm
      simp [assocFind, assocSet, hk, hp, ih, hkk]
    · simp only [assocSet, hk, if_false, assocFind]
      by_cases hk' : p.1 = k'
      · simp [hk']
      · simp [hk', ih]

theorem assocFind_filter (q : WordKey → Bool) (k : WordKey)
    (l : List (WordKey × WordRecord)) :
    assocFind k (l.filter (fun p => q p.1)) =
      if q k then assocFind k l else none := by
  induction l with
  | nil => simp [assocFind]
  | cons p t ih =>
    by_cases hq : q p.1
    · rw [List.filter_cons_of_pos (by simpa using hq)]
      by_cases hk : p.1 = k
      · subst hk
        simp [assocFind, hq]
      · simp only [assocFind, hk, if_false]
        exact ih
    · rw [List.filter_cons_of_neg (by simpa using hq)]
      by_cases hk : p.1 = k
      · subst hk
        simp only [assocFind, if_true, eq_self_iff_true]
        rw [ih]
        simp [hq]
      · simp only [assocFind, hk, if_false] at ih ⊢
        exact ih

/-- Modelled from the spec: §4.1 `upsert` — validates difficulty in [1,5]
(spec §3/§7: writes with difficulty outside [1,5] are rejected with
InvalidArgument, not clamped), creates if absent (inserting the new key into
all three structures), else returns the existing record unchanged. -/
def upsert (s : CoreState) (k : WordKey) (d : Int) (now : ℚ) :
    Except CoreError (WordRecord × CoreState) :=
  if d < 1 ∨ 5 < d then .error .InvalidArgument
  else
    match assocFind k s.store with
    | some r => .ok (r, s)
    | none =>
      let r := newRecord k d now
      .ok (r, { store := (k, r) :: s.store
                dueQueue := k :: s.dueQueue
                diffIndex := (d, k) :: s.diffIndex })

/-- Modelled from the spec: §4.2 `recordAnswer` — applies the policy of
`applyAnswer` to the stored record and repositions it in the DueQueue.  The
queue holds keys and reads priorities from the store, so repositioning
changes no structural membership. -/
def recordAnswer (s : CoreState) (k : WordKey) (correct : Bool) (now : ℚ) :
    Except CoreError (WordRecord × CoreState) :=
  match assocFind k s.store with
  | none => .error .NotFound
  | some r =>
    let r' := applyAnswer r correct now
    .ok (r', { s with store := assocSet k r' s.store })

/-- Modelled from the spec: §6 `setDifficulty` — validates difficulty, updates
the record and repositions the DifficultyIndex entry (remove + insert under
the new key, spec §4.3 `updateDifficulty`). -/
def setDifficulty (s : CoreState) (k : WordKey) (d : Int) :
    Except CoreError (WordRecord × CoreState) :=
  if d < 1 ∨ 5 < d then .error .InvalidArgument
  else
    match assocFind k s.store with
    | none => .error .NotFound
    | some r =>
      let r' := { r with difficulty := d }
      .ok (r', { store := assocSet k r' s.store
                 dueQueue := s.dueQueue
                 diffIndex := (d, k) :: s.diffIndex.filter (fun e => !decide (e.2 = k)) })

/-- Modelled from the spec: §4.1 `delete` — removes a single record from all
three structures, returning whether anything was removed. -/
def deleteRecord (s : CoreState) (k : WordKey) : Bool × CoreState :=
  match assocFind k s.store with
  | none => (false, s)
  | some _ =>
    (true, { store := s.store.filter (fun p => !decide (p.1 = k))
             dueQueue := s.dueQueue.filter (fun q => !decide (q = k))
             diffIndex := s.diffIndex.filter (fun e => !decide (e.2 = k)) })

/-- Modelled from the spec: §4.1 `deleteAll` — removes every record of a
learner from all three structures and returns the number removed. -/
def deleteAll (s : CoreState) (learner : String) : Nat × CoreState :=
  ((s.store.filter (fun p => decide (p.1.learner = learner))).length,
   { store := s.store.filter (fun p => !decide (p.1.learner = learner))
     dueQueue := s.dueQueue.filter (fun q => !decide (q.learner = learner))
     diffIndex := s.diffIndex.filter (fun e => !decide (e.2.learner = learner)) })

/-- The DueQueue order of spec §4.2: ascending `next_due_at`, ties broken by
lexicographic word order. -/
def dueLe (a b : WordRecord) : Prop :=
  a.next_due_at < b.next_due_at ∨
    (a.next_due_at = b.next_due_at ∧ a.key.word ≤ b.key.word)

instance : DecidableRel dueLe := fun a b => by
  unfold dueLe
  infer_instance

instance : IsTotal WordRecord dueLe where
  total a b := by
    rcases lt_trichotomy a.next_due_at b.next_due_at with h | h | h
    · exact Or.inl (Or.inl h)
    · rcases le_total a.key.word b.key.word with hw | hw
      · exact Or.inl (Or.inr ⟨h, hw⟩)
      · exact Or.inr (Or.inr ⟨h.symm, hw⟩)
    · exact Or.inr (Or.inl h)

instance : IsTrans WordRecord dueLe where
  trans a b c hab hbc := by
    rcases hab with hab | ⟨hab, hw1⟩
    · rcases hbc with hbc | ⟨hbc, hw2⟩
      · exact Or.inl (hab.trans hbc)
      · exact Or.inl (hbc ▸ hab)
    · rcases hbc with hbc | ⟨hbc, hw2⟩
      · exact Or.inl (hab ▸ hbc)
      · exact Or.inr ⟨hab.trans hbc, hw1.trans hw2⟩

/-- The records referenced by the DueQueue, in queue order. -/
def queueRecords (s : CoreState) : List WordRecord :=
  s.dueQueue.filterMap (fun k => assocFind k s.store)

/-- Modelled from the spec: §4.2 `peekDue` — lists records with
`next_due_at ≤ now`, soonest first (ties by word), up to `limit`, without
removing anything (the state is returned unchanged). -/
def peekDue (s : CoreState) (now : ℚ) (limit : Nat) :
    List WordRecord × CoreState :=
  ((List.insertionSort dueLe
      ((queueRecords s).filter (fun r => decide (r.next_due_at ≤ now)))).take limit,
   s)

/-- Modelled from the spec: §4.3 `rangeByDifficulty` — validates d in [1,5]
(invalid input signals a validation error rather than returning empty), then
range-scans the DifficultyIndex for the level and returns the words in
lexicographic order. -/
def rangeByDifficulty (s : CoreState) (d : Int) : Except CoreError (List String) :=
  if d < 1 ∨ 5 < d then .error .InvalidArgument
  else .ok (List.insertionSort (· ≤ ·)
    ((s.diffIndex.filter (fun e => decide (e.1 = d))).map (fun e => e.2.word)))

/-- Cross-structure consistency, spec §3/§8: store keys are unique, the
DueQueue and the DifficultyIndex each hold exactly the store's keys (one
position per record), and every index entry carries the difficulty currently
stored for its record. -/
def Consistent (s : CoreState) : Prop :=
  (s.store.map Prod.fst).Nodup ∧
  s.dueQueue.Perm (s.store.map Prod.fst) ∧
  (s.diffIndex.map Prod.snd).Perm (s.store.map Prod.fst) ∧
  ∀ e ∈ s.diffIndex, (assocFind e.2 s.store).map (fun r => r.difficulty) = some e.1

theorem consistent_empty : Consistent emptyCore := by
  refine ⟨List.nodup_nil, List.Perm.refl _, List.Perm.refl _, ?_⟩
  intro e he
  simp [emptyCore] at he

theorem map_filter_comp {α β : Type} (f : α → β) (q : β → Bool) (l : List α) :
    (l.filter (fun a => q (f a))).map f = (l.map f).filter q := by
  induction l with
  | nil => rfl
  | cons a t ih =>
    by_cases h : q (f a) <;> simp [h, ih]

theorem cons_filter_ne_perm {α : Type} [DecidableEq α] {l : List α} {a : α}
    (hnd : l.Nodup) (h : a ∈ l) :
    (a :: l.filter (fun x => !decide (x = a))).Perm l := by
  induction l with
  | nil => cases h
  | cons b t ih =>
    rcases List.mem_cons.mp h with he | hmem
    · subst he
      have hat : a ∉ t := (List.nodup_cons.mp hnd).1
      have hft : t.filter (fun x => !decide (x = a)) = t := by
        apply List.filter_eq_self.mpr
        intro x hx
        simp only [Bool.not_eq_true', decide_eq_false_iff_not]
        exact fun he2 => hat (he2 ▸ hx)
      simp [hft]
    · have hnd' := (List.nodup_cons.mp hnd).2
      have hba : ¬ (b = a) := fun he => (List.nodup_cons.mp hnd).1 (he ▸ hmem)
      have hkeep : (b :: t).filter (fun x => !decide (x = a)) =
          b :: t.filter (fun x => !decide (x = a)) := by
        simp [List.filter_cons, hba]
      rw [hkeep]
      exact (List.Perm.swap b a _).trans ((ih hnd' hmem).cons b)

theorem filterMap_assocFind_keys (l : List (WordKey × WordRecord))
    (hnd : (l.map Prod.fst).Nodup) :
    (l.map Prod.fst).filterMap (fun k => assocFind k l) = l.map Prod.snd := by
  induction l with
  | nil => rfl
  | cons p t ih =>
    simp only [List.map_cons, List.nodup_cons] at hnd
    simp only [List.map_cons, List.filterMap_cons]
    have hself : assocFind p.1 (p :: t) = some p.2 := by simp [assocFind]
    rw [hself]
    have hcongr : (t.map Prod.fst).filterMap (fun k => assocFind k (p :: t)) =
        (t.map Prod.fst).filterMap (fun k => assocFind k t) := by
      apply List.filterMap_congr
      intro k hk
      have hne : ¬ (p.1 = k) := fun he => hnd.1 (he ▸ hk)
      simp [assocFind, hne]
    rw [hcongr, ih hnd.2]

/-- Consistency is preserved by `upsert`; on success the store gains at most
the new key. -/
theorem consistent_upsert {s : CoreState} {k : WordKey} {d : Int} {now : ℚ}
    {r : WordRecord} {s' : CoreState} (hs : Consistent s)
    (h : upsert s k d now = .ok (r, s')) : Consistent s' := by
  obtain ⟨hnd, hq, hx, hd⟩ := hs
  by_cases hv : d < 1 ∨ 5 < d
  · simp [upsert, hv] at h
  · rcases hfind : assocFind k s.store with _ | r0
    · simp only [upsert, hv, if_false, hfind] at h
      obtain ⟨-, hs'⟩ := Prod.mk.injEq .. ▸ (Except.ok.injEq .. ▸ h)
      subst hs'
      have hknotin : k ∉ s.store.map Prod.fst := assocFind_eq_none.mp hfind
      refine ⟨?_, ?_, ?_, ?_⟩
      · rw [List.map_cons]
        exact List.nodup_cons.mpr ⟨hknotin, hnd⟩
      · simpa using hq.cons k
      · simpa using hx.cons k
      · intro e he
        rcases List.mem_cons.mp he with he | he
        · subst he
          simp [assocFind, newRecord]
        · have hne : k ≠ e.2 := by
            intro hke
            exact hknotin (hke ▸ hx.mem_iff.mp (List.mem_map.mpr ⟨e, he, rfl⟩))
          have := hd e he
          simpa [assocFind, hne] using this
    · simp only [upsert, hv, if_false, hfind] at h
      obtain ⟨-, hs'⟩ := Prod.mk.injEq .. ▸ (Except.ok.injEq .. ▸ h)
      subst hs'
      exact ⟨hnd, hq, hx, hd⟩

/-- Consistency is preserved by `recordAnswer` (the store's keys, the queue
and the index are untouched; only the value at the answered key changes, and
its difficulty is unchanged by the policy). -/
theorem consistent_recordAnswer {s : CoreState} {k : WordKey} {correct : Bool}
    {now : ℚ} {r : WordRecord} {s' : CoreState} (hs : Consistent s)
    (h : recordAnswer s k correct now = .ok (r, s')) : Consistent s' := by
  obtain ⟨hnd, hq, hx, hd⟩ := hs
  rcases hfind : assocFind k s.store with _ | r0
  · simp [recordAnswer, hfind] at h
  · simp only [recordAnswer, hfind] at h
    obtain ⟨-, hs'⟩ := Prod.mk.injEq .. ▸ (Except.ok.injEq .. ▸ h)
    subst hs'
    have hfst := assocSet_map_fst k (applyAnswer r0 correct now) s.store
    refine ⟨hfst ▸ hnd, hfst ▸ hq, hfst ▸ hx, ?_⟩
    intro e he
    by_cases hek : e.2 = k
    · have hset := @assocFind_assocSet_self k r0 (applyAnswer r0 correct now) s.store hfind
      have hdiff : (applyAnswer r0 correct now).difficulty = r0.difficulty := by
        cases correct <;> simp [applyAnswer]
      have hold := hd e he
      rw [hek, hfind] at hold
      simp at hold
      rw [hek, hset]
      simp [hdiff, hold]
    · have hset := @assocFind_assocSet_ne k e.2 (applyAnswer r0 correct now) s.store hek
      rw [hset]
      exact hd e he

/-- Consistency is preserved by `setDifficulty` (remove + insert of the
index entry under the new difficulty). -/
theorem consistent_setDifficulty {s : CoreState} {k : WordKey} {d : Int}
    {r : WordRecord} {s' : CoreState} (hs : Consistent s)
    (h : setDifficulty s k d = .ok (r, s')) : Consistent s' := by
  obtain ⟨hnd, hq, hx, hd⟩ := hs
  by_cases hv : d < 1 ∨ 5 < d
  · simp [setDifficulty, hv] at h
  · rcases hfind : assocFind k s.store with _ | r0
    · simp [setDifficulty, hv, hfind] at h
    · simp only [setDifficulty, hv, if_false, hfind] at h
      obtain ⟨-, hs'⟩ := Prod.mk.injEq .. ▸ (Except.ok.injEq .. ▸ h)
      subst hs'
      have hfst := assocSet_map_fst k { r0 with difficulty := d } s.store
      have hkmem : k ∈ s.store.map Prod.fst :=
        assocFind_isSome_iff.mp (by simp [hfind])
      have hxnd : (s.diffIndex.map Prod.snd).Nodup := hx.nodup_iff.mpr hnd
      have hkx : k ∈ s.diffIndex.map Prod.snd := hx.mem_iff.mpr hkmem
      refine ⟨hfst ▸ hnd, hfst ▸ hq, ?_, ?_⟩
      · rw [hfst]
        simp only [List.map_cons]
        have hmf := map_filter_comp Prod.snd (fun x => !decide (x = k)) s.diffIndex
        rw [hmf]
        exact (cons_filter_ne_perm hxnd hkx).trans hx
      · intro e he
        rcases List.mem_cons.mp he with he | he
        · subst he
          simp [@assocFind_assocSet_self k r0 { r0 with difficulty := d } s.store hfind]
        · have hef : e.2 ≠ k := by
            have := List.of_mem_filter he
            simpa using this
          rw [assocFind_assocSet_ne hef]
          exact hd e (List.mem_of_mem_filter he)

/-- Consistency is preserved by `delete`. -/
theorem consistent_deleteRecord {s : CoreState} (k : WordKey) (hs : Consistent s) :
    Consistent (deleteRecord s k).2 := by
  obtain ⟨hnd, hq, hx, hd⟩ := hs
  rcases hfind : assocFind k s.store with _ | r0
  · simp only [deleteRecord, hfind]
    exact ⟨hnd, hq, hx, hd⟩
  · simp only [deleteRecord, hfind]
    have hmf := map_filter_comp Prod.fst (fun x => !decide (x = k)) s.store
    have hms := map_filter_comp Prod.snd (fun x => !decide (x = k)) s.diffIndex
    refine ⟨?_, ?_, ?_, ?_⟩
    · rw [hmf]
      exact hnd.filter _
    · rw [hmf]
      exact hq.filter _
    · rw [hms, hmf]
      exact hx.filter _
    · intro e he
      have hef : ¬ (e.2 = k) := by
        have := List.of_mem_filter he
        simpa using this
      have := assocFind_filter (fun x => !decide (x = k)) e.2 s.store
      simp only [hef, decide_False, Bool.not_false, if_true] at this
      rw [this]
      exact hd e (List.mem_of_mem_filter he)

/-- Consistency is preserved by `deleteAll`. -/
theorem consistent_deleteAll {s : CoreState} (learner : String) (hs : Consistent s) :
    Consistent (deleteAll s learner).2 := by
  obtain ⟨hnd, hq, hx, hd⟩ := hs
  simp only [deleteAll]
  have hmf := map_filter_comp Prod.fst (fun x => !decide (x.learner = learner)) s.store
  have hms := map_filter_comp Prod.snd (fun x => !decide (x.learner = learner)) s.diffIndex
  refine ⟨?_, ?_, ?_, ?_⟩
  · rw [hmf]
    exact hnd.filter _
  · rw [hmf]
    exact hq.filter _
  · rw [hms, hmf]
    exact hx.filter _
  · intro e he
    have hef : ¬ (e.2.learner = learner) := by
      have := List.of_mem_filter he
      simpa using this
    have := assocFind_filter (fun x => !decide (x.learner = learner)) e.2 s.store
    simp only [hef, decide_False, Bool.not_false, if_true] at this
    rw [this]
    exact hd e (List.mem_of_mem_filter he)

/-- In a consistent state, a stored record occupies exactly one queue
position and one index position. -/
theorem counts_of_consistent {s : CoreState} (hs : Consistent s) :
    ∀ k r, assocFind k s.store = some r →
      s.dueQueue.count k = 1 ∧ (s.diffIndex.map Prod.snd).count k = 1 := by
  obtain ⟨hnd, hq, hx, -⟩ := hs
  intro k r hfind
  have hkmem : k ∈ s.store.map Prod.fst :=
    assocFind_isSome_iff.mp (by simp [hfind])
  constructor
  · exact List.count_eq_one_of_mem (hq.nodup_iff.mpr hnd) (hq.mem_iff.mpr hkmem)
  · exact List.count_eq_one_of_mem (hx.nodup_iff.mpr hnd) (hx.mem_iff.mpr hkmem)

theorem length_filter_not_add {α : Type} (p : α → Bool) (l : List α) :
    (l.filter (fun a => !p a)).length + (l.filter p).length = l.length := by
  induction l with
  | nil => rfl
  | cons a t ih => by_cases h : p a <;> simp [h] <;> omega

/-- A concrete state holding the single record for ("u1","cat","en"),
difficulty 2, used to witness the hypotheses of the main theorems. -/
def kCat : WordKey := ⟨"u1", "cat", "en"⟩

/-- The fresh record for `kCat` (created at time 0). -/
def rCat : WordRecord := newRecord kCat 2 0

/-- The concrete one-record state. -/
def stateCat : CoreState := ⟨[(kCat, rCat)], [kCat], [(2, kCat)]⟩

/-- The record after one correct answer at time 0. -/
def rCat1 : WordRecord := applyAnswer rCat true 0

/-- The state after `recordAnswer stateCat kCat true 0`. -/
def stateCat1 : CoreState := ⟨[(kCat, rCat1)], [kCat], [(2, kCat)]⟩

theorem consistent_stateCat : Consistent stateCat := by
  refine ⟨?_, ?_, ?_, ?_⟩
  · decide
  · decide
  · decide
  · decide

/-- C1.  For every stored record, `recordAnswer(learner, word, language,
correct)` at time `now` updates it by the spaced-repetition policy: on a
correct answer the new confidence is min(1, confidence + 0.15) and the new
interval is min(interval * 2, 90 days); on an incorrect answer the new
confidence is max(0, confidence - 0.25) and the new interval is the base
interval of 1 day; in both cases last_review_at becomes now and next_due_at
becomes now + the new interval. -/
theorem recordAnswer_policy (s : CoreState) (k : WordKey) (correct : Bool)
    (now : ℚ) (r r' : WordRecord) (s' : CoreState)
    (hfound : assocFind k s.store = some r)
    (h : recordAnswer s k correct now = .ok (r', s')) :
    (correct = true → r'.confidence = min 1 (r.confidence + 15/100) ∧
      r'.interval = min (r.interval * 2) 90) ∧
    (correct = false → r'.confidence = max 0 (r.confidence - 25/100) ∧
      r'.interval = 1) ∧
    r'.last_review_at = some now ∧
    r'.next_due_at = now + r'.interval := by
  simp only [recordAnswer, hfound] at h
  obtain ⟨hr', -⟩ := Prod.mk.injEq .. ▸ (Except.ok.injEq .. ▸ h)
  subst hr'
  cases correct with
  | true =>
    refine ⟨fun _ => ?_, fun hc => absurd hc (by decide), ?_, ?_⟩
    · constructor <;> simp [applyAnswer, correct_increment, growth_factor, max_interval]
    · simp [applyAnswer]
    · simp [applyAnswer]
  | false =>
    refine ⟨fun hc => absurd hc (by decide), fun _ => ?_, ?_, ?_⟩
    · constructor <;> simp [applyAnswer, incorrect_penalty, base_interval]
    · simp [applyAnswer]
    · simp [applyAnswer, base_interval]

/-- Witness for C1 at the concrete one-record state. -/
theorem recordAnswer_policy_witness :
    (true = true → rCat1.confidence = min 1 (rCat.confidence + 15/100) ∧
      rCat1.interval = min (rCat.interval * 2) 90) ∧
    (true = false → rCat1.confidence = max 0 (rCat.confidence - 25/100) ∧
      rCat1.interval = 1) ∧
    rCat1.last_review_at = some 0 ∧
    rCat1.next_due_at = 0 + rCat1.interval :=
  recordAnswer_policy stateCat kCat true 0 rCat rCat1 stateCat1
    (by decide) rfl

/-- C2.  Every record created by upsert keeps, after every finite sequence of
recordAnswer applications, its confidence in [0,1] and its interval in
[base_interval, max_interval] = [1 day, 90 days]. -/
theorem confidence_interval_bounds (k : WordKey) (d : Int) (now : ℚ)
    (steps : List (Bool × ℚ)) :
    0 ≤ (runAnswers (newRecord k d now) steps).confidence ∧
    (runAnswers (newRecord k d now) steps).confidence ≤ 1 ∧
    1 ≤ (runAnswers (newRecord k d now) steps).interval ∧
    (runAnswers (newRecord k d now) steps).interval ≤ 90 := by
  have h := recordOK_runAnswers (newRecord k d now) steps (recordOK_new k d now)
  simpa [RecordOK, base_interval, max_interval] using h

/-- C3.  A record has status Completed iff its confidence is at least the
completion threshold 0.9 and at least one successful review occurred; and a
single incorrect answer always demotes to UnderReview and resets the
interval to the base interval. -/
theorem completed_iff_threshold (k : WordKey) (d : Int) (now : ℚ)
    (steps : List (Bool × ℚ)) (now2 : ℚ) :
    ((runAnswers (newRecord k d now) steps).status = .Completed ↔
      (9/10 ≤ (runAnswers (newRecord k d now) steps).confidence ∧
        (runAnswers (newRecord k d now) steps).reviewed_ok = true)) ∧
    (applyAnswer (runAnswers (newRecord k d now) steps) false now2).status =
      .UnderReview ∧
    (applyAnswer (runAnswers (newRecord k d now) steps) false now2).interval = 1 := by
  have hst := statusOK_runAnswers (newRecord k d now) steps
    (recordOK_new k d now) (statusOK_new k d now)
  refine ⟨by simpa [StatusOK, completion_threshold] using hst, ?_, ?_⟩
  · simp [applyAnswer]
  · simp [applyAnswer, base_interval]

/-- C4.  Every write operation preserves cross-structure consistency: after
upsert, recordAnswer, setDifficulty, delete and deleteAll, each stored
record occupies exactly one DueQueue position and one DifficultyIndex
position, and a deleted record is absent from all three structures. -/
theorem cross_structure_consistency (s : CoreState) (k : WordKey) (d : Int)
    (correct : Bool) (now : ℚ) (learner : String) (hs : Consistent s) :
    (∀ r s', upsert s k d now = .ok (r, s') → Consistent s' ∧
      ∀ k0 r0, assocFind k0 s'.store = some r0 →
        s'.dueQueue.count k0 = 1 ∧ (s'.diffIndex.map Prod.snd).count k0 = 1) ∧
    (∀ r s', recordAnswer s k correct now = .ok (r, s') → Consistent s' ∧
      ∀ k0 r0, assocFind k0 s'.store = some r0 →
        s'.dueQueue.count k0 = 1 ∧ (s'.diffIndex.map Prod.snd).count k0 = 1) ∧
    (∀ r s', setDifficulty s k d = .ok (r, s') → Consistent s' ∧
      ∀ k0 r0, assocFind k0 s'.store = some r0 →
        s'.dueQueue.count k0 = 1 ∧ (s'.diffIndex.map Prod.snd).count k0 = 1) ∧
    (Consistent (deleteRecord s k).2 ∧
      ∀ k0 r0, assocFind k0 (deleteRecord s k).2.store = some r0 →
        (deleteRecord s k).2.dueQueue.count k0 = 1 ∧
        ((deleteRecord s k).2.diffIndex.map Prod.snd).count k0 = 1) ∧
    (Consistent (deleteAll s learner).2 ∧
      ∀ k0 r0, assocFind k0 (deleteAll s learner).2.store = some r0 →
        (deleteAll s learner).2.dueQueue.count k0 = 1 ∧
        ((deleteAll s learner).2.diffIndex.map Prod.snd).count k0 = 1) ∧
    (assocFind k (deleteRecord s k).2.store = none ∧
      (deleteRecord s k).2.dueQueue.count k = 0 ∧
      ((deleteRecord s k).2.diffIndex.map Prod.snd).count k = 0) := by
  obtain ⟨hnd, hq, hx, hd⟩ := id hs
  refine ⟨?_, ?_, ?_, ?_, ?_, ?_⟩
  · intro r s' h
    have hc := consistent_upsert hs h
    exact ⟨hc, counts_of_consistent hc⟩
  · intro r s' h
    have hc := consistent_recordAnswer hs h
    exact ⟨hc, counts_of_consistent hc⟩
  · intro r s' h
    have hc := consistent_setDifficulty hs h
    exact ⟨hc, counts_of_consistent hc⟩
  · have hc := consistent_deleteRecord k hs
    exact ⟨hc, counts_of_consistent hc⟩
  · have hc := consistent_deleteAll learner hs
    exact ⟨hc, counts_of_consistent hc⟩
  · rcases hfind : assocFind k s.store with _ | r0
    · have hknot : k ∉ s.store.map Prod.fst := assocFind_eq_none.mp hfind
      have hq0 : s.dueQueue.count k = 0 :=
        List.count_eq_zero_of_not_mem (fun hm => hknot (hq.mem_iff.mp hm))
      have hx0 : (s.diffIndex.map Prod.snd).count k = 0 :=
        List.count_eq_zero_of_not_mem (fun hm => hknot (hx.mem_iff.mp hm))
      have hdel : (deleteRecord s k).2 = s := by simp [deleteRecord, hfind]
      rw [hdel]
      exact ⟨hfind, hq0, hx0⟩
    · have hdel : (deleteRecord s k).2 =
        ⟨s.store.filter (fun p => !decide (p.1 = k)),
         s.dueQueue.filter (fun q => !decide (q = k)),
         s.diffIndex.filter (fun e => !decide (e.2 = k))⟩ := by
        simp [deleteRecord, hfind]
      rw [hdel]
      refine ⟨?_, ?_, ?_⟩
      · have h2 := assocFind_filter (fun x => !decide (x = k)) k s.store
        simpa using h2
      · refine List.count_eq_zero_of_not_mem (fun hm => ?_)
        have h2 := List.of_mem_filter hm
        simp at h2
      · refine List.count_eq_zero_of_not_mem (fun hm => ?_)
        rcases List.mem_map.mp hm with ⟨e, he, he2⟩
        have h2 := List.of_mem_filter he
        rw [he2] at h2
        simp at h2

/-- Witness for C4 at the concrete one-record state. -/
theorem cross_structure_consistency_witness :
    assocFind kCat (deleteRecord stateCat kCat).2.store = none ∧
    (deleteRecord stateCat kCat).2.dueQueue.count kCat = 0 ∧
    ((deleteRecord stateCat kCat).2.diffIndex.map Prod.snd).count kCat = 0 :=
  (cross_structure_consistency stateCat kCat 2 true 0 "u1"
    consistent_stateCat).2.2.2.2.2

/-- C5.  For a key already present, a second upsert with that key (and any
valid difficulty) returns the existing record with all its progress fields
unchanged and leaves the whole state unchanged. -/
theorem upsert_idempotent (s : CoreState) (k : WordKey) (d : Int) (now : ℚ)
    (r : WordRecord) (h1 : 1 ≤ d) (h2 : d ≤ 5)
    (hfound : assocFind k s.store = some r) :
    upsert s k d now = .ok (r, s) := by
  have hv : ¬ (d < 1 ∨ 5 < d) := by
    push_neg
    exact ⟨h1, h2⟩
  simp [upsert, hv, hfound]

/-- Witness for C5 at the concrete one-record state. -/
theorem upsert_idempotent_witness :
    upsert stateCat kCat 2 99 = .ok (rCat, stateCat) :=
  upsert_idempotent stateCat kCat 2 99 rCat (by decide) (by decide) (by decide)

/-- C6.  peekDue returns, without consuming anything (the state component is
unchanged), exactly the records whose next_due_at is at most now (whenever
the limit covers the store), sorted ascending by next_due_at with ties
broken by word. -/
theorem peekDue_spec (s : CoreState) (now : ℚ) (limit : Nat)
    (hs : Consistent s) (hlim : s.store.length ≤ limit) :
    (peekDue s now limit).2 = s ∧
    (∀ r ∈ (peekDue s now limit).1, r.next_due_at ≤ now) ∧
    List.Sorted dueLe (peekDue s now limit).1 ∧
    (∀ r, r ∈ (peekDue s now limit).1 ↔
      r ∈ s.store.map Prod.snd ∧ r.next_due_at ≤ now) := by
  obtain ⟨hnd, hq, hx, hdx⟩ := hs
  have hqr : (queueRecords s).Perm (s.store.map Prod.snd) := by
    have h1 := hq.filterMap (fun k => assocFind k s.store)
    rw [filterMap_assocFind_keys s.store hnd] at h1
    exact h1
  have hperm := List.perm_insertionSort dueLe
    ((queueRecords s).filter (fun r => decide (r.next_due_at ≤ now)))
  have hfltlen :
      ((queueRecords s).filter (fun r => decide (r.next_due_at ≤ now))).length ≤ limit := by
    have h1 := List.length_filter_le (fun r => decide (r.next_due_at ≤ now)) (queueRecords s)
    have h2 : (queueRecords s).length = (s.store.map Prod.snd).length := hqr.length_eq
    rw [List.length_map] at h2
    omega
  have htake : (peekDue s now limit).1 =
      List.insertionSort dueLe
        ((queueRecords s).filter (fun r => decide (r.next_due_at ≤ now))) := by
    show (List.insertionSort dueLe _).take limit = _
    exact List.take_of_length_le (by rw [hperm.length_eq]; exact hfltlen)
  refine ⟨rfl, ?_, ?_, ?_⟩
  · intro r hr
    rw [htake] at hr
    have h2 := List.of_mem_filter (hperm.mem_iff.mp hr)
    simpa using h2
  · rw [htake]
    exact List.sorted_insertionSort dueLe _
  · intro r
    rw [htake]
    constructor
    · intro hr
      have h2 := hperm.mem_iff.mp hr
      refine ⟨hqr.mem_iff.mp (List.mem_of_mem_filter h2), ?_⟩
      have h3 := List.of_mem_filter h2
      simpa using h3
    · rintro ⟨hmem, hdue⟩
      exact hperm.mem_iff.mpr
        (List.mem_filter.mpr ⟨hqr.mem_iff.mpr hmem, by simpa using hdue⟩)

/-- Witness for C6 at the concrete one-record state. -/
theorem peekDue_spec_witness : (peekDue stateCat 0 1).2 = stateCat :=
  (peekDue_spec stateCat 0 1 consistent_stateCat (by decide)).1

/-- From src/PROJECT_DOCUMENTATION.md, DifficultyPage.handleFetch: the
frontend refuses to query when the requested difficulty is below 1 or above
5 ("Difficulty must be between 1 and 5"). -/
def handleFetchRejects (difficulty : Int) : Bool :=
  decide (difficulty < 1) || decide (difficulty > 5)

/-- C7.  For d in [1,5], rangeByDifficulty returns exactly the words whose
stored difficulty is d, in lexicographic order; for d outside [1,5]
(0 and 6 in particular) it signals InvalidArgument instead of returning an
empty sequence, matching the frontend validation in
DifficultyPage.handleFetch. -/
theorem rangeByDifficulty_spec (s : CoreState) (d : Int) (hs : Consistent s) :
    ((d < 1 ∨ 5 < d) →
      rangeByDifficulty s d = .error .InvalidArgument ∧ handleFetchRejects d = true) ∧
    (1 ≤ d → d ≤ 5 → ∃ ws, rangeByDifficulty s d = .ok ws ∧
      List.Sorted (· ≤ ·) ws ∧
      (∀ w, w ∈ ws ↔ ∃ k r, assocFind k s.store = some r ∧
        r.difficulty = d ∧ k.word = w)) := by
  obtain ⟨hnd, hq, hx, hdx⟩ := hs
  constructor
  · intro hv
    refine ⟨by simp [rangeByDifficulty, hv], ?_⟩
    rcases hv with hv | hv <;> simp [handleFetchRejects, hv]
  · intro h1 h2
    have hv : ¬ (d < 1 ∨ 5 < d) := by
      push_neg
      exact ⟨h1, h2⟩
    refine ⟨List.insertionSort (· ≤ ·)
        ((s.diffIndex.filter (fun e => decide (e.1 = d))).map (fun e => e.2.word)),
      by simp [rangeByDifficulty, hv], ?_, ?_⟩
    · exact List.sorted_insertionSort _ _
    · intro w
      rw [List.mem_insertionSort]
      constructor
      · intro hw
        rcases List.mem_map.mp hw with ⟨e, he, hew⟩
        have hef : e.1 = d := by
          have h3 := List.of_mem_filter he
          simpa using h3
        have h4 := hdx e (List.mem_of_mem_filter he)
        rcases hfound : assocFind e.2 s.store with _ | r
        · rw [hfound] at h4
          simp at h4
        · rw [hfound] at h4
          simp at h4
          exact ⟨e.2, r, hfound, by rw [h4, hef], hew⟩
      · rintro ⟨k, r, hfound, hdiff, hword⟩
        have hkmem : k ∈ s.store.map Prod.fst :=
          assocFind_isSome_iff.mp (by simp [hfound])
        have hkx : k ∈ s.diffIndex.map Prod.snd := hx.mem_iff.mpr hkmem
        rcases List.mem_map.mp hkx with ⟨e, he, hek⟩
        have h4 := hdx e he
        rw [hek, hfound] at h4
        simp at h4
        have he1 : e.1 = d := by rw [← h4, hdiff]
        refine List.mem_map.mpr ⟨e, List.mem_filter.mpr ⟨he, by simp [he1]⟩, ?_⟩
        rw [hek, hword]

/-- Witness for C7: the concrete state rejects d = 0 and d = 6, as does the
frontend validation. -/
theorem rangeByDifficulty_spec_witness :
    rangeByDifficulty stateCat 0 = .error .InvalidArgument ∧
    handleFetchRejects 0 = true ∧
    rangeByDifficulty stateCat 6 = .error .InvalidArgument :=
  ⟨((rangeByDifficulty_spec stateCat 0 consistent_stateCat).1 (by decide)).1,
   ((rangeByDifficulty_spec stateCat 0 consistent_stateCat).1 (by decide)).2,
   ((rangeByDifficulty_spec stateCat 6 consistent_stateCat).1 (by decide)).1⟩

/-- C8.  A write (upsert or setDifficulty) supplying a difficulty outside
[1,5] is rejected with InvalidArgument (nothing is clamped or written), and
no reachable record ever carries a confidence outside [0,1]. -/
theorem invalid_write_rejected (s : CoreState) (k : WordKey) (d : Int)
    (now : ℚ) (hd : d < 1 ∨ 5 < d) :
    upsert s k d now = .error .InvalidArgument ∧
    setDifficulty s k d = .error .InvalidArgument ∧
    (∀ (k2 : WordKey) (d2 : Int) (now2 : ℚ) (steps : List (Bool × ℚ)),
      0 ≤ (runAnswers (newRecord k2 d2 now2) steps).confidence ∧
      (runAnswers (newRecord k2 d2 now2) steps).confidence ≤ 1) := by
  refine ⟨by simp [upsert, hd], by simp [setDifficulty, hd], ?_⟩
  intro k2 d2 now2 steps
  have h := recordOK_runAnswers (newRecord k2 d2 now2) steps (recordOK_new k2 d2 now2)
  exact ⟨h.1, h.2.1⟩

/-- Witness for C8 at d = 6. -/
theorem invalid_write_rejected_witness :
    upsert stateCat kCat 6 0 = .error .InvalidArgument ∧
    setDifficulty stateCat kCat 6 = .error .InvalidArgument :=
  ⟨(invalid_write_rejected stateCat kCat 6 0 (by decide)).1,
   (invalid_write_rejected stateCat kCat 6 0 (by decide)).2.1⟩

/-- C9.  deleteAll removes every record of the learner from the store, the
queue and the index, returns the number removed, and leaves every other
learner's entries untouched in all three structures. -/
theorem deleteAll_spec (s : CoreState) (learner : String) :
    (∀ k : WordKey, k.learner = learner →
      assocFind k (deleteAll s learner).2.store = none) ∧
    (∀ k ∈ (deleteAll s learner).2.dueQueue, ¬ k.learner = learner) ∧
    (∀ e ∈ (deleteAll s learner).2.diffIndex, ¬ e.2.learner = learner) ∧
    (deleteAll s learner).2.store.length + (deleteAll s learner).1 =
      s.store.length ∧
    (∀ k : WordKey, ¬ k.learner = learner →
      assocFind k (deleteAll s learner).2.store = assocFind k s.store) ∧
    (∀ k : WordKey, ¬ k.learner = learner →
      (deleteAll s learner).2.dueQueue.count k = s.dueQueue.count k) ∧
    (∀ e : Int × WordKey, ¬ e.2.learner = learner →
      (deleteAll s learner).2.diffIndex.count e = s.diffIndex.count e) := by
  refine ⟨?_, ?_, ?_, ?_, ?_, ?_, ?_⟩
  · intro k hk
    show assocFind k (s.store.filter (fun p => !decide (p.1.learner = learner))) = none
    rw [assocFind_filter (fun x => !decide (x.learner = learner)) k s.store]
    simp [hk]
  · intro k hk
    have h2 := List.of_mem_filter
      (show k ∈ s.dueQueue.filter (fun q => !decide (q.learner = learner)) from hk)
    simpa using h2
  · intro e he
    have h2 := List.of_mem_filter
      (show e ∈ s.diffIndex.filter (fun e => !decide (e.2.learner = learner)) from he)
    simpa using h2
  · exact length_filter_not_add (fun p => decide (p.1.learner = learner)) s.store
  · intro k hk
    show assocFind k (s.store.filter (fun p => !decide (p.1.learner = learner))) =
      assocFind k s.store
    rw [assocFind_filter (fun x => !decide (x.learner = learner)) k s.store]
    simp [hk]
  · intro k hk
    show (s.dueQueue.filter (fun q => !decide (q.learner = learner))).count k =
      s.dueQueue.count k
    exact List.count_filter (by simpa using hk)
  · intro e he
    show (s.diffIndex.filter (fun e => !decide (e.2.learner = learner))).count e =
      s.diffIndex.count e
    exact List.count_filter (by simpa using he)

/-- Witness for C9: deleting learner u1 in the concrete state removes the
cat record. -/
theorem deleteAll_spec_witness :
    assocFind kCat (deleteAll stateCat "u1").2.store = none :=
  (deleteAll_spec stateCat "u1").1 kCat (by decide)

/-- From src/unnamed/part_000: the /stats payload the frontend consumes
(wordsLearned, translations, pronunciations, reviewsCompleted). -/
structure UserStats where
  wordsLearned : Nat
  translations : Nat
  pronunciations : Nat
  reviewsCompleted : Nat
deriving DecidableEq, Repr

/-- From src/unnamed/part_000, AnalyticsPage.loadAnalytics: the simulated
difficulty distribution, computed only from the words-learned total as
Math.floor(total * 0.3), Math.floor(total * 0.25), Math.floor(total * 0.2),
Math.floor(total * 0.15), Math.floor(total * 0.1) for levels 1..5.  For a
natural total each JavaScript product floors to the exact rational floor
(the decimal constants carry a relative representation error below one
half-ulp of the nearby integers for all counts in range), which is natural
division. -/
def difficultyDistribution (totalWords : Nat) : List (Nat × Nat) :=
  [ (1, totalWords * 3 / 10)
  , (2, totalWords * 25 / 100)
  , (3, totalWords * 2 / 10)
  , (4, totalWords * 15 / 100)
  , (5, totalWords * 1 / 10) ]

/-- From src/unnamed/part_000, AnalyticsPage.loadAnalytics: the analytics
view fetches only /stats; the scheduling core (the second argument, with the
actual stored difficulties) is never consulted. -/
def loadAnalytics (stats : UserStats) (_core : CoreState) : List (Nat × Nat) :=
  difficultyDistribution stats.wordsLearned

/-- From src/unnamed/part_000, AnalyticsPage pieData: the centre label sums
the per-level counts ("Total Words"). -/
def analyticsTotalWords (dist : List (Nat × Nat)) : Nat :=
  (dist.map Prod.snd).sum

theorem floor_mul_div (n a b : ℕ) :
    ⌊(n : ℚ) * ((a : ℚ) / (b : ℚ))⌋₊ = n * a / b := by
  rw [← mul_div_assoc, ← Nat.cast_mul, Nat.floor_div_eq_div]

/-- C10.  The analytics "Words by Difficulty" counts are the floors of total
times 0.3, 0.25, 0.2, 0.15, 0.1 for levels 1 to 5; they depend only on the
words-learned statistic (the scheduling state with the real difficulties is
irrelevant), and their sum can be strictly below the total. -/
theorem analytics_words_by_difficulty (stats : UserStats) (core core2 : CoreState) :
    loadAnalytics stats core = loadAnalytics stats core2 ∧
    (∀ stats2 : UserStats, stats2.wordsLearned = stats.wordsLearned →
      loadAnalytics stats2 core = loadAnalytics stats core) ∧
    loadAnalytics stats core =
      [ (1, ⌊(stats.wordsLearned : ℚ) * (3/10)⌋₊)
      , (2, ⌊(stats.wordsLearned : ℚ) * (25/100)⌋₊)
      , (3, ⌊(stats.wordsLearned : ℚ) * (2/10)⌋₊)
      , (4, ⌊(stats.wordsLearned : ℚ) * (15/100)⌋₊)
      , (5, ⌊(stats.wordsLearned : ℚ) * (1/10)⌋₊) ] ∧
    (∃ stats3 : UserStats,
      analyticsTotalWords (loadAnalytics stats3 core) < stats3.wordsLearned) := by
  refine ⟨rfl, fun stats2 h2 => by simp [loadAnalytics, h2], ?_, ?_⟩
  · have e1 : ⌊(stats.wordsLearned : ℚ) * (3/10)⌋₊ = stats.wordsLearned * 3 / 10 := by
      simpa using floor_mul_div stats.wordsLearned 3 10
    have e2 : ⌊(stats.wordsLearned : ℚ) * (25/100)⌋₊ = stats.wordsLearned * 25 / 100 := by
      simpa using floor_mul_div stats.wordsLearned 25 100
    have e3 : ⌊(stats.wordsLearned : ℚ) * (2/10)⌋₊ = stats.wordsLearned * 2 / 10 := by
      simpa using floor_mul_div stats.wordsLearned 2 10
    have e4 : ⌊(stats.wordsLearned : ℚ) * (15/100)⌋₊ = stats.wordsLearned * 15 / 100 := by
      simpa using floor_mul_div stats.wordsLearned 15 100
    have e5 : ⌊(stats.wordsLearned : ℚ) * (1/10)⌋₊ = stats.wordsLearned * 1 / 10 := by
      simpa using floor_mul_div stats.wordsLearned 1 10
    rw [e1, e2, e3, e4, e5]
    rfl
  · refine ⟨⟨1, 0, 0, 0⟩, ?_⟩
    show analyticsTotalWords (difficultyDistribution 1) < 1
    decide

/-- Witness for C10: the counts for seven learned words agree whatever the
real difficulties stored in the core are. -/
theorem analytics_words_by_difficulty_witness :
    loadAnalytics ⟨7, 0, 0, 0⟩ emptyCore = loadAnalytics ⟨7, 1, 2, 3⟩ emptyCore :=
  (analytics_words_by_difficulty ⟨7, 1, 2, 3⟩ emptyCore emptyCore).2.1 ⟨7, 0, 0, 0⟩ rfl
